import Mathlib

/-!
Verification of the cryptographic verification core of the QLDB DMV sample
(`pyqldbsamples/verifier.py`, `pyqldbsamples/validate_qldb_hash_chain.py`,
`pyqldbsamples/qldb/journal_block.py`).

Hashes are byte strings, embedded as `List Nat` whose entries are `< 256`.
The external SHA-256 primitive (`hashlib.sha256`) is not code of this
repository; it enters the embedding as an explicit function parameter
`H : List Nat → List Nat` wherever the source calls it, so every theorem
holds for the real SHA-256 in particular.  Python exceptions
(`AssertionError` from the length asserts, `RuntimeError` from chain
validation) are embedded as an `Except` error type.
-/

namespace Pyqldb

/-- Byte strings (`bytes` in the source): lists of byte values. -/
abbrev Bytes := List Nat

/-- `HASH_LENGTH = 32` from `verifier.py`. -/
def HASH_LENGTH : Nat := 32

/-- `UPPER_BOUND = 8` from `verifier.py` (number of bits in a byte). -/
def UPPER_BOUND : Nat := 8

/-- The exceptions the verification core can raise:
`invalidHashLength` for the `assert len(...) == HASH_LENGTH` failures in
`compare_hash_values`, `invalidBytes` for the `assert len(original) != 0`
in `flip_random_bit`, and the two `RuntimeError` kinds of
`compare_journal_blocks` (distinguished by their messages in the source). -/
inductive VerifyError where
  | invalidHashLength
  | invalidBytes
  | chainBroken
  | blockHashMismatch
deriving DecidableEq

/-- A byte string is a well-formed hash value: exactly `HASH_LENGTH` bytes,
each in `0..255`. -/
def is_hash (h : Bytes) : Prop := h.length = HASH_LENGTH ∧ ∀ b ∈ h, b < 256

instance (h : Bytes) : Decidable (is_hash h) := by
  unfold is_hash; infer_instance

/-- The value of a byte when read through `array('b', ...)` in
`compare_hash_values`: two's-complement signed interpretation, `-128..127`. -/
def to_signed (b : Nat) : Int := if b < 128 then (b : Int) else (b : Int) - 256

/-- The loop of `compare_hash_values`: walk the given index list (the source
iterates `range(len(hash_array1) - 1, -1, -1)`), return the first non-zero
signed byte difference, else `0`. -/
def cmp_from (h1 h2 : Bytes) : List Nat → Int
  | [] => 0
  | i :: rest =>
    let difference := to_signed (h1.getD i 0) - to_signed (h2.getD i 0)
    if difference = 0 then cmp_from h1 h2 rest else difference

/-- `compare_hash_values(hash1, hash2)` from `verifier.py`: assert both
inputs are 32 bytes long, then compare signed bytes from the last index
down to the first. -/
def compare_hash_values (hash1 hash2 : Bytes) : Except VerifyError Int :=
  if hash1.length ≠ HASH_LENGTH then .error .invalidHashLength
  else if hash2.length ≠ HASH_LENGTH then .error .invalidHashLength
  else .ok (cmp_from hash1 hash2 (List.range hash1.length).reverse)

/-- `join_hash_pairwise(hash1, hash2)` from `verifier.py`: an empty operand
yields the other operand unchanged; otherwise the two hashes are
concatenated in the order decided by `compare_hash_values` and hashed with
SHA-256 (the parameter `H`). -/
def join_hash_pairwise (H : Bytes → Bytes) (hash1 hash2 : Bytes) :
    Except VerifyError Bytes :=
  if hash1.length = 0 then .ok hash2
  else if hash2.length = 0 then .ok hash1
  else do
    let difference ← compare_hash_values hash1 hash2
    pure (H (if difference < 0 then hash1 ++ hash2 else hash2 ++ hash1))

/-- `calculate_root_hash_from_internal_hashes(internal_hashes, leaf_hash)`
from `verifier.py`: `reduce(join_hash_pairwise, internal_hashes, leaf_hash)`,
a left fold starting from the leaf hash. -/
def calculate_root_hash_from_internal_hashes (H : Bytes → Bytes)
    (internal_hashes : List Bytes) (leaf_hash : Bytes) :
    Except VerifyError Bytes :=
  internal_hashes.foldlM (join_hash_pairwise H) leaf_hash

/-- `build_candidate_digest(proof, leaf_hash)` from `verifier.py`.  The Ion
parsing step (`parse_proof`) is external-collaborator glue that yields the
list of proof hashes; the embedding receives that list directly. -/
def build_candidate_digest (H : Bytes → Bytes) (proof : List Bytes)
    (leaf_hash : Bytes) : Except VerifyError Bytes :=
  calculate_root_hash_from_internal_hashes H proof leaf_hash

/-- `verify_document(document_hash, digest, proof)` from `verifier.py`:
recompute the candidate digest and return `digest == candidate_digest`. -/
def verify_document (H : Bytes → Bytes) (document_hash digest : Bytes)
    (proof : List Bytes) : Except VerifyError Bool := do
  let candidate_digest ← build_candidate_digest H proof document_hash
  pure (digest == candidate_digest)

/-- `flip_random_bit(original)` from `verifier.py`.  The two random draws
(`randrange(len(original))` and `randrange(UPPER_BOUND)`) are exposed as the
parameters `altered_position` and `bit_shift`; the function asserts the
input is non-empty, then XOR-flips one bit of one byte of a copy. -/
def flip_random_bit (original : Bytes) (altered_position bit_shift : Nat) :
    Except VerifyError Bytes :=
  if original.length = 0 then .error .invalidBytes
  else .ok (original.set altered_position
    (Nat.xor (original.getD altered_position 0) (1 <<< bit_shift)))

/-- `JournalBlock` from `qldb/journal_block.py`: the three hash fields the
validator reads, plus the opaque metadata fields (type parameter `M`). -/
structure JournalBlock (M : Type) where
  block_address : M
  transaction_id : M
  block_timestamp : M
  block_hash : Bytes
  entries_hash : Bytes
  previous_block_hash : Bytes
  entries_hash_list : M
  transaction_info : M
  redaction_info : M
  revisions : M
deriving DecidableEq

/-- `compare_journal_blocks(previous_journal_block, journal_block)` from
`validate_qldb_hash_chain.py`, the step function of the `reduce` in
`verify`.  (The `previous_journal_block is None` branch of the source is
unreachable under `reduce` without an initializer and is not modelled.) -/
def compare_journal_blocks {M : Type} (H : Bytes → Bytes)
    (previous_journal_block journal_block : JournalBlock M) :
    Except VerifyError (JournalBlock M) :=
  if previous_journal_block.block_hash ≠ journal_block.previous_block_hash then
    .error .chainBroken
  else
    match join_hash_pairwise H journal_block.entries_hash
        previous_journal_block.block_hash with
    | .error e => .error e
    | .ok block_hash =>
      if block_hash ≠ journal_block.block_hash then .error .blockHashMismatch
      else .ok journal_block

/-- `verify(journal_blocks)` from `validate_qldb_hash_chain.py`: return
immediately on the empty list, otherwise
`reduce(compare_journal_blocks, journal_blocks)` (no initializer: the first
block seeds the accumulator) with the final value discarded. -/
def verify {M : Type} (H : Bytes → Bytes)
    (journal_blocks : List (JournalBlock M)) : Except VerifyError Unit :=
  match journal_blocks with
  | [] => .ok ()
  | b :: rest => (rest.foldlM (compare_journal_blocks H) b).map (fun _ => ())

/-! ### Spec-side definitions (for refinement comparisons) -/

/-- Spec-side left fold of §4.2: accumulator starts as the leaf hash and is
combined with each proof hash in order, stopping at the first error. -/
def fold_proof_spec (H : Bytes → Bytes) (leaf_hash : Bytes) :
    List Bytes → Except VerifyError Bytes
  | [] => .ok leaf_hash
  | h :: rest =>
    match join_hash_pairwise H leaf_hash h with
    | .ok acc => fold_proof_spec H acc rest
    | .error e => .error e

/-- The combination of two well-formed (non-empty) hashes: sorted
concatenation followed by the hash function.  Used to state the chain
validator's recomputation rule. -/
def combine_wf (H : Bytes → Bytes) (a b : Bytes) : Bytes :=
  H (if cmp_from a b (List.range a.length).reverse < 0 then a ++ b else b ++ a)

/-- Spec-side chain validator of §4.4: walk consecutive pairs in order;
on the first failing pair report `chainBroken` for a broken previous-hash
link, else `blockHashMismatch` for a wrong recomputed block hash; empty and
single-block sequences succeed. -/
def validate_chain_spec {M : Type} (H : Bytes → Bytes) :
    List (JournalBlock M) → Except VerifyError Unit
  | [] => .ok ()
  | [_] => .ok ()
  | p :: c :: rest =>
    if p.block_hash = c.previous_block_hash then
      if combine_wf H c.entries_hash p.block_hash = c.block_hash then
        validate_chain_spec H (c :: rest)
      else .error .blockHashMismatch
    else .error .chainBroken

/-- A concrete stand-in hash function for witnesses: constant 32-byte
output (the theorems are parametric in `H`, so any function will do). -/
def H0 : Bytes → Bytes := fun _ => List.replicate 32 0

/-- A journal block is well-formed when its three hash fields are 32-byte
buffers. -/
def wf_block {M : Type} (b : JournalBlock M) : Prop :=
  b.block_hash.length = 32 ∧ b.entries_hash.length = 32 ∧
    b.previous_block_hash.length = 32

instance {M : Type} (b : JournalBlock M) : Decidable (wf_block b) := by
  unfold wf_block; infer_instance

/-- Two blocks (over possibly different metadata types) agree on the three
fields the validator reads. -/
def blocks_agree {M₁ M₂ : Type} (b₁ : JournalBlock M₁)
    (b₂ : JournalBlock M₂) : Prop :=
  b₁.block_hash = b₂.block_hash ∧ b₁.entries_hash = b₂.entries_hash ∧
    b₁.previous_block_hash = b₂.previous_block_hash

/-- The all-zero 32-byte hash, for concrete witnesses. -/
def zero_hash : Bytes := List.replicate 32 0

/-- A concrete block whose hash fields are all `zero_hash` and whose
metadata fields are the natural number 0. -/
def zero_block : JournalBlock Nat :=
  ⟨0, 0, 0, zero_hash, zero_hash, zero_hash, 0, 0, 0, 0⟩

/-- Like `zero_block` but with different (irrelevant) metadata. -/
def one_block : JournalBlock Nat :=
  ⟨1, 1, 1, zero_hash, zero_hash, zero_hash, 1, 1, 1, 1⟩

/-! ### C7: empty sentinel is a two-sided identity for combine -/

/-- C7: for every hash `b`, `combine(empty, b) = b`, and for every hash `a`,
`combine(a, empty) = a` — the zero-length sentinel is a two-sided identity
for `join_hash_pairwise`, the operand being returned unchanged. -/
theorem join_hash_pairwise_identity (H : Bytes → Bytes) (a b : Bytes) :
    join_hash_pairwise H [] b = .ok b ∧ join_hash_pairwise H a [] = .ok a := by
  constructor
  · simp [join_hash_pairwise]
  · rcases a with _ | ⟨x, xs⟩ <;> simp [join_hash_pairwise]

/-! ### C2: the root-hash computation is the left fold of combine -/

/-- C2: `calculate_root_hash_from_internal_hashes` computes the left-to-right
fold of `join_hash_pairwise` over the proof starting from the leaf: it equals
the spec-side recursion `fold_proof_spec`, returns the leaf unchanged on the
empty proof, and on a two-element proof equals
`combine(combine(leaf, h1), h2)`. -/
theorem calculate_root_hash_is_left_fold (H : Bytes → Bytes)
    (leaf_hash : Bytes) (proof : List Bytes) (h1 h2 : Bytes) :
    calculate_root_hash_from_internal_hashes H proof leaf_hash
      = fold_proof_spec H leaf_hash proof ∧
    calculate_root_hash_from_internal_hashes H [] leaf_hash = .ok leaf_hash ∧
    calculate_root_hash_from_internal_hashes H [h1, h2] leaf_hash
      = (join_hash_pairwise H leaf_hash h1).bind
          (fun acc => join_hash_pairwise H acc h2) := by
  refine ⟨?_, rfl, ?_⟩
  · induction proof generalizing leaf_hash with
    | nil => rfl
    | cons p rest ih =>
      show (join_hash_pairwise H leaf_hash p).bind
          (fun acc => rest.foldlM (join_hash_pairwise H) acc) = _
      unfold fold_proof_spec
      cases join_hash_pairwise H leaf_hash p with
      | error e => rfl
      | ok acc => exact ih acc
  · unfold calculate_root_hash_from_internal_hashes
    simp only [List.foldlM_cons, List.foldlM_nil]
    cases hj1 : join_hash_pairwise H leaf_hash h1 with
    | error e => rfl
    | ok acc =>
      show join_hash_pairwise H acc h2 >>= pure = join_hash_pairwise H acc h2
      exact bind_pure (join_hash_pairwise H acc h2)

/-! ### C5: round trip — a folded digest verifies -/

/-- C5: whenever folding the proof from the leaf produces a digest,
`verify_document` applied to that leaf, that digest and that proof returns
`true`. -/
theorem verify_round_trip (H : Bytes → Bytes) (leaf_hash root : Bytes)
    (proof : List Bytes)
    (h : calculate_root_hash_from_internal_hashes H proof leaf_hash = .ok root) :
    verify_document H leaf_hash root proof = .ok true := by
  unfold verify_document build_candidate_digest
  rw [h]
  show Except.ok (root == root) = Except.ok true
  rw [beq_self_eq_true]

/-- Witness for C5 at a concrete input: the empty proof folds to the leaf
itself, and verification succeeds. -/
theorem verify_round_trip_witness :
    calculate_root_hash_from_internal_hashes H0 [] [1, 2] = .ok [1, 2] ∧
    verify_document H0 [1, 2] [1, 2] [] = .ok true :=
  ⟨rfl, verify_round_trip H0 [1, 2] [1, 2] [] rfl⟩

/-! ### The comparator: supporting lemmas -/

theorem cmp_from_cons (a b : Bytes) (i : Nat) (rest : List Nat) :
    cmp_from a b (i :: rest) =
      if to_signed (a.getD i 0) - to_signed (b.getD i 0) = 0
      then cmp_from a b rest
      else to_signed (a.getD i 0) - to_signed (b.getD i 0) := rfl

theorem to_signed_inj {a b : Nat} (ha : a < 256) (hb : b < 256)
    (h : to_signed a = to_signed b) : a = b := by
  unfold to_signed at h
  split at h <;> split at h <;> omega

theorem range_reverse_succ (n : Nat) :
    (List.range (n + 1)).reverse = n :: (List.range n).reverse := by
  simp [List.range_succ]

theorem cmp_from_zero_iff (a b : Bytes) (n : Nat) :
    cmp_from a b (List.range n).reverse = 0 ↔
      ∀ i < n, to_signed (a.getD i 0) = to_signed (b.getD i 0) := by
  induction n with
  | zero => simp [cmp_from]
  | succ n ih =>
    rw [range_reverse_succ, cmp_from_cons]
    by_cases hd : to_signed (a.getD n 0) - to_signed (b.getD n 0) = 0
    · rw [if_pos hd, ih]
      constructor
      · intro hall i hi
        rcases Nat.lt_succ_iff_lt_or_eq.mp hi with h | h
        · exact hall i h
        · subst h; omega
      · intro hall i hi
        exact hall i (Nat.lt_succ_of_lt hi)
    · rw [if_neg hd]
      constructor
      · intro h; exact absurd h hd
      · intro hall
        exact absurd (by have := hall n (Nat.lt_succ_self n); omega) hd

theorem cmp_from_first_diff (a b : Bytes) (n : Nat)
    (h : cmp_from a b (List.range n).reverse ≠ 0) :
    ∃ i, i < n ∧ cmp_from a b (List.range n).reverse
        = to_signed (a.getD i 0) - to_signed (b.getD i 0) ∧
      ∀ j, i < j → j < n → to_signed (a.getD j 0) = to_signed (b.getD j 0) := by
  induction n with
  | zero => simp [cmp_from] at h
  | succ n ih =>
    rw [range_reverse_succ, cmp_from_cons] at h ⊢
    by_cases hd : to_signed (a.getD n 0) - to_signed (b.getD n 0) = 0
    · rw [if_pos hd] at h ⊢
      obtain ⟨i, hi, heq, hrest⟩ := ih h
      refine ⟨i, Nat.lt_succ_of_lt hi, heq, fun j hij hj => ?_⟩
      rcases Nat.lt_succ_iff_lt_or_eq.mp hj with h' | h'
      · exact hrest j hij h'
      · subst h'; omega
    · rw [if_neg hd] at h ⊢
      exact ⟨n, Nat.lt_succ_self n, rfl, fun j hij hj => by omega⟩

theorem cmp_from_swap (a b : Bytes) (l : List Nat) :
    cmp_from b a l = -(cmp_from a b l) := by
  induction l with
  | nil => simp [cmp_from]
  | cons i rest ih =>
    rw [cmp_from_cons, cmp_from_cons]
    by_cases hd : to_signed (a.getD i 0) - to_signed (b.getD i 0) = 0
    · rw [if_pos (by omega), if_pos hd, ih]
    · rw [if_neg (by omega), if_neg hd]
      omega

theorem getD_eq_getElem_of_lt {a : Bytes} {i : Nat} (hi : i < a.length) :
    a.getD i 0 = a.get ⟨i, hi⟩ := by
  simp [List.getD_eq_getElem?_getD, List.getElem?_eq_getElem hi]

theorem getD_lt_256 {a : Bytes} (hbytes : ∀ x ∈ a, x < 256) {i : Nat}
    (hi : i < a.length) : a.getD i 0 < 256 := by
  rw [getD_eq_getElem_of_lt hi]
  exact hbytes _ (a.get_mem i hi)

theorem bytes_eq_of_signed_eq {a b : Bytes} (ha : is_hash a) (hb : is_hash b)
    (h : ∀ i < 32, to_signed (a.getD i 0) = to_signed (b.getD i 0)) :
    a = b := by
  obtain ⟨hal, hab⟩ := ha
  obtain ⟨hbl, hbb⟩ := hb
  apply List.ext_getElem (by rw [hal, hbl])
  intro i h1 h2
  have hi : i < 32 := by rw [hal] at h1; exact h1
  have hs := h i hi
  rw [getD_eq_getElem_of_lt h1, getD_eq_getElem_of_lt h2] at hs
  show a.get ⟨i, h1⟩ = b.get ⟨i, h2⟩
  exact to_signed_inj (hab _ (a.get_mem i h1)) (hbb _ (b.get_mem i h2)) hs

/-! ### C1: the comparator walks indices 31 down to 0 over signed bytes -/

/-- C1: on 32-byte hashes `compare_hash_values` succeeds and returns the
signed difference `a[i] - b[i]` at the highest index `i` where the two
hashes differ (all bytes above `i` agreeing), returning `0` exactly when
`a` and `b` are byte-for-byte equal; bytes are read as two's-complement
signed values, so byte `0x80` reads as `-128`, less than `0x7F`. -/
theorem compare_hash_values_spec (a b : Bytes) (ha : is_hash a)
    (hb : is_hash b) :
    ∃ r : Int, compare_hash_values a b = .ok r ∧
      (r = 0 ↔ a = b) ∧
      (r ≠ 0 → ∃ i, i < 32 ∧
        r = to_signed (a.getD i 0) - to_signed (b.getD i 0) ∧
        ∀ j, i < j → j < 32 → a.getD j 0 = b.getD j 0) ∧
      to_signed 128 = -128 ∧ to_signed 128 < to_signed 127 := by
  have hal : a.length = 32 := ha.1
  have hbl : b.length = 32 := hb.1
  refine ⟨cmp_from a b (List.range 32).reverse, ?_, ?_, ?_, by decide, by decide⟩
  · unfold compare_hash_values
    rw [if_neg (by rw [hal]; decide), if_neg (by rw [hbl]; decide), hal]
  · constructor
    · intro h0
      exact bytes_eq_of_signed_eq ha hb ((cmp_from_zero_iff a b 32).mp h0)
    · intro heq
      subst heq
      exact (cmp_from_zero_iff a a 32).mpr (fun i _ => rfl)
  · intro hne
    obtain ⟨i, hi, heq, hrest⟩ := cmp_from_first_diff a b 32 hne
    refine ⟨i, hi, heq, fun j hij hj => ?_⟩
    have hja : j < a.length := by omega
    have hjb : j < b.length := by omega
    exact to_signed_inj (getD_lt_256 ha.2 hja) (getD_lt_256 hb.2 hjb)
      (hrest j hij hj)

/-- Witness for C1: both hashes all-zero, the comparator returns `0`. -/
theorem compare_hash_values_spec_witness :
    is_hash (List.replicate 32 0) ∧
    (∃ r : Int,
      compare_hash_values (List.replicate 32 0) (List.replicate 32 0)
        = .ok r ∧
      (r = 0 ↔ List.replicate 32 0 = List.replicate 32 (0 : Nat)) ∧
      (r ≠ 0 → ∃ i, i < 32 ∧
        r = to_signed ((List.replicate 32 0).getD i 0)
              - to_signed ((List.replicate 32 0).getD i 0) ∧
        ∀ j, i < j → j < 32 →
          (List.replicate 32 (0 : Nat)).getD j 0
            = (List.replicate 32 (0 : Nat)).getD j 0) ∧
      to_signed 128 = -128 ∧ to_signed 128 < to_signed 127) :=
  ⟨by decide,
    compare_hash_values_spec (List.replicate 32 0) (List.replicate 32 0)
      (by decide) (by decide)⟩

/-! ### C6: combine is commutative on well-formed hashes -/

/-- C6: for 32-byte hashes `a` and `b`, `join_hash_pairwise` gives the same
result in either argument order: the internal signed-reversed sort makes
the concatenation order independent of the argument order. -/
theorem join_hash_pairwise_comm (H : Bytes → Bytes) (a b : Bytes)
    (ha : is_hash a) (hb : is_hash b) :
    join_hash_pairwise H a b = join_hash_pairwise H b a := by
  have hal : a.length = 32 := ha.1
  have hbl : b.length = 32 := hb.1
  have h1 : compare_hash_values a b = .ok (cmp_from a b (List.range 32).reverse) := by
    unfold compare_hash_values
    rw [if_neg (by rw [hal]; decide), if_neg (by rw [hbl]; decide), hal]
  have h2 : compare_hash_values b a
      = .ok (-(cmp_from a b (List.range 32).reverse)) := by
    unfold compare_hash_values
    rw [if_neg (by rw [hbl]; decide), if_neg (by rw [hal]; decide), hbl,
      cmp_from_swap]
  have e1 : join_hash_pairwise H a b
      = .ok (H (if cmp_from a b (List.range 32).reverse < 0
          then a ++ b else b ++ a)) := by
    unfold join_hash_pairwise
    rw [if_neg (by rw [hal]; decide), if_neg (by rw [hbl]; decide), h1]
    rfl
  have e2 : join_hash_pairwise H b a
      = .ok (H (if -(cmp_from a b (List.range 32).reverse) < 0
          then b ++ a else a ++ b)) := by
    unfold join_hash_pairwise
    rw [if_neg (by rw [hbl]; decide), if_neg (by rw [hal]; decide), h2]
    rfl
  rw [e1, e2]
  rcases lt_trichotomy (cmp_from a b (List.range 32).reverse) 0 with hlt | hz | hgt
  · rw [if_pos hlt, if_neg (by omega)]
  · have hab : a = b :=
      bytes_eq_of_signed_eq ha hb ((cmp_from_zero_iff a b 32).mp hz)
    subst hab
    rw [if_neg (by omega), if_neg (by omega)]
  · rw [if_neg (by omega), if_pos (by omega)]

/-- Witness for C6: two concrete distinct 32-byte hashes combine the same
way in both orders. -/
theorem join_hash_pairwise_comm_witness :
    is_hash (List.replicate 32 0) ∧ is_hash (1 :: List.replicate 31 0) ∧
    join_hash_pairwise H0 (List.replicate 32 0) (1 :: List.replicate 31 0)
      = join_hash_pairwise H0 (1 :: List.replicate 31 0) (List.replicate 32 0) :=
  ⟨by decide, by decide,
    join_hash_pairwise_comm H0 (List.replicate 32 0) (1 :: List.replicate 31 0)
      (by decide) (by decide)⟩

/-! ### C3: document verification is plain byte equality, false on mismatch -/

/-- C3: whenever the candidate digest computation succeeds,
`verify_document` returns `true` exactly when the trusted digest equals the
candidate byte-for-byte, and on any mismatch it returns the boolean `false`
(not an error). -/
theorem verify_document_plain_equality (H : Bytes → Bytes)
    (document_hash digest : Bytes) (proof : List Bytes) (c : Bytes)
    (h : build_candidate_digest H proof document_hash = .ok c) :
    (verify_document H document_hash digest proof = .ok true ↔ digest = c) ∧
    (digest ≠ c → verify_document H document_hash digest proof = .ok false) := by
  have hv : verify_document H document_hash digest proof = .ok (digest == c) := by
    unfold verify_document
    rw [h]
    rfl
  constructor
  · rw [hv]
    constructor
    · intro he
      exact eq_of_beq (Except.ok.inj he)
    · intro he
      subst he
      rw [beq_self_eq_true]
  · intro hne
    rw [hv, beq_eq_false_iff_ne.mpr hne]

/-- Witness for C3: empty proof, leaf `[]`, trusted digest `[1]` — the
candidate is `[]`, the digests differ, and the result is `.ok false`. -/
theorem verify_document_plain_equality_witness :
    build_candidate_digest H0 [] [] = .ok [] ∧
    ((verify_document H0 [] [1] [] = .ok true ↔ ([1] : Bytes) = []) ∧
      (([1] : Bytes) ≠ [] → verify_document H0 [] [1] [] = .ok false)) :=
  ⟨rfl, verify_document_plain_equality H0 [] [1] [] [] rfl⟩

/-! ### C8: length checking happens only when both operands are non-empty -/

/-- C8 counterexample: a 3-byte (non-empty, not 32-byte) buffer paired with
the empty sentinel is returned unchanged by `join_hash_pairwise` — no
`invalidHashLength` error is raised, contradicting the claim that a
wrong-length buffer always fails fast even when the other operand is
empty. -/
theorem join_hash_pairwise_no_length_check_cex :
    join_hash_pairwise H0 [7, 7, 7] [] = .ok [7, 7, 7] := rfl

/-- C8 amended: when BOTH operands are non-empty, a call in which either
operand is not exactly 32 bytes long fails fast with `invalidHashLength`
(the assertion in `compare_hash_values`); when either operand is the empty
sentinel the other operand is returned unchanged with no length check. -/
theorem join_hash_pairwise_length_check_amended (H : Bytes → Bytes)
    (a b : Bytes) (hane : a ≠ []) (hbne : b ≠ [])
    (hlen : a.length ≠ 32 ∨ b.length ≠ 32) :
    join_hash_pairwise H a b = .error .invalidHashLength := by
  have ha0 : ¬a.length = 0 := fun h => hane (List.length_eq_zero.mp h)
  have hb0 : ¬b.length = 0 := fun h => hbne (List.length_eq_zero.mp h)
  unfold join_hash_pairwise
  rw [if_neg ha0, if_neg hb0]
  unfold compare_hash_values
  simp only [HASH_LENGTH]
  by_cases ha32 : a.length = 32
  · rcases hlen with h | h
    · exact absurd ha32 h
    · rw [if_neg (by omega), if_pos h]
      rfl
  · rw [if_pos ha32]
    rfl

/-- Witness for the amended C8: two 1-byte buffers trip the length
assertion. -/
theorem join_hash_pairwise_length_check_amended_witness :
    ([1] : Bytes) ≠ [] ∧ ([2] : Bytes) ≠ [] ∧
    (([1] : Bytes).length ≠ 32 ∨ ([2] : Bytes).length ≠ 32) ∧
    join_hash_pairwise H0 [1] [2] = .error .invalidHashLength :=
  ⟨by decide, by decide, Or.inl (by decide),
    join_hash_pairwise_length_check_amended H0 [1] [2] (by decide) (by decide)
      (Or.inl (by decide))⟩

/-! ### C10: flip_random_bit flips exactly one bit -/

/-- C10: for a non-empty byte string and any position/bit draw within
range, `flip_random_bit` succeeds with a string of the same length that
agrees with the input everywhere except the chosen byte, whose bits differ
from the input exactly at the chosen bit index; the empty string is
rejected with the assertion error. -/
theorem flip_random_bit_spec (original : Bytes)
    (altered_position bit_shift : Nat) (hne : original ≠ [])
    (hpos : altered_position < original.length) (hbit : bit_shift < 8) :
    ∃ altered,
      flip_random_bit original altered_position bit_shift = .ok altered ∧
      altered.length = original.length ∧
      (∀ j, j ≠ altered_position → altered.getD j 0 = original.getD j 0) ∧
      (∀ k, ((altered.getD altered_position 0).testBit k
            ≠ (original.getD altered_position 0).testBit k ↔ k = bit_shift)) ∧
      flip_random_bit [] altered_position bit_shift = .error .invalidBytes := by
  have h0 : ¬original.length = 0 := fun h => hne (List.length_eq_zero.mp h)
  refine ⟨original.set altered_position
      (Nat.xor (original.getD altered_position 0) (1 <<< bit_shift)),
    ?_, by simp, ?_, ?_, rfl⟩
  · unfold flip_random_bit
    rw [if_neg h0]
  · intro j hj
    simp [List.getD_eq_getElem?_getD, List.getElem?_set_ne (Ne.symm hj)]
  · intro k
    have hset : (original.set altered_position
        (Nat.xor (original.getD altered_position 0) (1 <<< bit_shift))).getD
          altered_position 0
        = Nat.xor (original.getD altered_position 0) (1 <<< bit_shift) := by
      simp [List.getD_eq_getElem?_getD, List.getElem?_set_self hpos]
    rw [hset, Nat.one_shiftLeft]
    show ((original.getD altered_position 0) ^^^ (2 ^ bit_shift)).testBit k
        ≠ (original.getD altered_position 0).testBit k ↔ k = bit_shift
    rw [Nat.testBit_xor, Nat.testBit_two_pow]
    cases hx : (original.getD altered_position 0).testBit k <;>
      by_cases hk : bit_shift = k <;>
        simp [hx, hk] <;> omega

/-- Witness for C10 at the one-byte string `[0]`, position 0, bit 0. -/
theorem flip_random_bit_spec_witness :
    ([0] : Bytes) ≠ [] ∧ 0 < ([0] : Bytes).length ∧ 0 < 8 ∧
    (∃ altered,
      flip_random_bit [0] 0 0 = .ok altered ∧
      altered.length = ([0] : Bytes).length ∧
      (∀ j, j ≠ 0 → altered.getD j 0 = ([0] : Bytes).getD j 0) ∧
      (∀ k, (altered.getD 0 0).testBit k
            ≠ (([0] : Bytes).getD 0 0).testBit k ↔ k = 0) ∧
      flip_random_bit [] 0 0 = .error .invalidBytes) :=
  ⟨by decide, by decide, by decide,
    flip_random_bit_spec [0] 0 0 (by decide) (by decide) (by decide)⟩

/-! ### Chain validation: supporting lemmas -/

theorem join_ok_of_len (H : Bytes → Bytes) {a b : Bytes}
    (ha : a.length = 32) (hb : b.length = 32) :
    join_hash_pairwise H a b = .ok (combine_wf H a b) := by
  unfold join_hash_pairwise compare_hash_values combine_wf
  rw [if_neg (by omega), if_neg (by omega),
    if_neg (by rw [ha]; decide), if_neg (by rw [hb]; decide)]
  rfl

theorem compare_journal_blocks_eq {M : Type} (H : Bytes → Bytes)
    (p c : JournalBlock M) (hp : p.block_hash.length = 32)
    (hc : c.entries_hash.length = 32) :
    compare_journal_blocks H p c =
      if p.block_hash = c.previous_block_hash then
        (if combine_wf H c.entries_hash p.block_hash = c.block_hash
          then .ok c else .error .blockHashMismatch)
      else .error .chainBroken := by
  unfold compare_journal_blocks
  rw [join_ok_of_len H hc hp]
  by_cases hlink : p.block_hash = c.previous_block_hash
  · rw [if_neg (not_not.mpr hlink), if_pos hlink]
    by_cases hbh : combine_wf H c.entries_hash p.block_hash = c.block_hash
    · rw [if_pos hbh]
      show (if combine_wf H c.entries_hash p.block_hash ≠ c.block_hash
          then Except.error VerifyError.blockHashMismatch
          else Except.ok c) = Except.ok c
      rw [if_neg (not_not.mpr hbh)]
    · rw [if_neg hbh]
      show (if combine_wf H c.entries_hash p.block_hash ≠ c.block_hash
          then Except.error VerifyError.blockHashMismatch
          else Except.ok c) = Except.error VerifyError.blockHashMismatch
      rw [if_pos hbh]
  · rw [if_pos hlink, if_neg hlink]

theorem validate_chain_spec_cons_cons {M : Type} (H : Bytes → Bytes)
    (p c : JournalBlock M) (rest : List (JournalBlock M)) :
    validate_chain_spec H (p :: c :: rest) =
      if p.block_hash = c.previous_block_hash then
        (if combine_wf H c.entries_hash p.block_hash = c.block_hash
          then validate_chain_spec H (c :: rest)
          else .error .blockHashMismatch)
      else .error .chainBroken := rfl

theorem verify_go {M : Type} (H : Bytes → Bytes) (b : JournalBlock M)
    (rest : List (JournalBlock M)) (hwfb : wf_block b)
    (hwf : ∀ x ∈ rest, wf_block x) :
    (rest.foldlM (compare_journal_blocks H) b).map (fun _ => ())
      = validate_chain_spec H (b :: rest) := by
  induction rest generalizing b with
  | nil => rfl
  | cons c t ih =>
    have hwfc : wf_block c := hwf c (by simp)
    have hwft : ∀ x ∈ t, wf_block x := fun x hx => hwf x (by simp [hx])
    rw [List.foldlM_cons, compare_journal_blocks_eq H b c hwfb.1 hwfc.2.1,
      validate_chain_spec_cons_cons]
    by_cases hlink : b.block_hash = c.previous_block_hash
    · rw [if_pos hlink, if_pos hlink]
      by_cases hbh : combine_wf H c.entries_hash b.block_hash = c.block_hash
      · rw [if_pos hbh, if_pos hbh]
        show (t.foldlM (compare_journal_blocks H) c).map (fun _ => ())
            = validate_chain_spec H (c :: t)
        exact ih c hwfc hwft
      · rw [if_neg hbh, if_neg hbh]
        rfl
    · rw [if_neg hlink, if_neg hlink]
      rfl

/-! ### C4: chain validation succeeds iff every consecutive pair checks out -/

/-- C4: on well-formed journal blocks, `verify` equals the spec-side
fail-fast validator (which stops at the first failing pair, reporting
`chainBroken` for a broken previous-hash link and otherwise
`blockHashMismatch` for a wrong recomputed block hash), and it succeeds
exactly when every consecutive pair satisfies both the link equation and
the block-hash recomputation equation — vacuously on empty and single-block
sequences. -/
theorem validate_chain_correct {M : Type} (H : Bytes → Bytes)
    (journal_blocks : List (JournalBlock M))
    (hwf : ∀ b ∈ journal_blocks, wf_block b) :
    verify H journal_blocks = validate_chain_spec H journal_blocks ∧
    (verify H journal_blocks = .ok () ↔
      journal_blocks.Chain' (fun p c =>
        p.block_hash = c.previous_block_hash ∧
        combine_wf H c.entries_hash p.block_hash = c.block_hash)) := by
  have heq : verify H journal_blocks = validate_chain_spec H journal_blocks := by
    cases journal_blocks with
    | nil => rfl
    | cons b rest =>
      exact verify_go H b rest (hwf b (by simp)) (fun x hx => hwf x (by simp [hx]))
  refine ⟨heq, ?_⟩
  rw [heq]
  clear heq hwf
  induction journal_blocks with
  | nil => simp [validate_chain_spec]
  | cons b rest ih =>
    cases rest with
    | nil => simp [validate_chain_spec]
    | cons c t =>
      rw [validate_chain_spec_cons_cons, List.chain'_cons]
      by_cases hlink : b.block_hash = c.previous_block_hash
      · by_cases hbh : combine_wf H c.entries_hash b.block_hash = c.block_hash
        · rw [if_pos hlink, if_pos hbh, ih]
          exact ⟨fun h => ⟨⟨hlink, hbh⟩, h⟩, fun h => h.2⟩
        · rw [if_pos hlink, if_neg hbh]
          exact ⟨fun h => Except.noConfusion h, fun h => absurd h.1.2 hbh⟩
      · rw [if_neg hlink]
        exact ⟨fun h => Except.noConfusion h, fun h => absurd h.1.1 hlink⟩

/-- Witness for C4: a concrete two-block list of well-formed blocks. -/
theorem validate_chain_correct_witness :
    (∀ b ∈ [zero_block, zero_block], wf_block b) ∧
    (verify H0 [zero_block, zero_block]
        = validate_chain_spec H0 [zero_block, zero_block] ∧
      (verify H0 [zero_block, zero_block] = .ok () ↔
        List.Chain' (fun p c =>
          p.block_hash = c.previous_block_hash ∧
          combine_wf H0 c.entries_hash p.block_hash = c.block_hash)
          [zero_block, zero_block])) :=
  ⟨by decide, validate_chain_correct H0 [zero_block, zero_block] (by decide)⟩

/-! ### C9: chain validation reads only the three hash fields -/

theorem except_bind_ok {ε α β : Type} (a : α) (f : α → Except ε β) :
    (Except.ok a : Except ε α).bind f = f a := rfl

theorem except_bind_error {ε α β : Type} (e : ε) (f : α → Except ε β) :
    (Except.error e : Except ε α).bind f = Except.error e := rfl

theorem except_bindM_ok {ε α β : Type} (a : α) (f : α → Except ε β) :
    (Except.ok a : Except ε α) >>= f = f a := rfl

theorem except_bindM_error {ε α β : Type} (e : ε) (f : α → Except ε β) :
    (Except.error e : Except ε α) >>= f = Except.error e := rfl

theorem compare_journal_blocks_bind_eq {M : Type} (H : Bytes → Bytes)
    (p c : JournalBlock M) :
    compare_journal_blocks H p c =
      if p.block_hash = c.previous_block_hash then
        (join_hash_pairwise H c.entries_hash p.block_hash).bind
          (fun bh => if bh = c.block_hash then .ok c
            else .error .blockHashMismatch)
      else .error .chainBroken := by
  unfold compare_journal_blocks
  by_cases hlink : p.block_hash = c.previous_block_hash
  · rw [if_neg (not_not.mpr hlink), if_pos hlink]
    cases join_hash_pairwise H c.entries_hash p.block_hash with
    | error e => rfl
    | ok bh =>
      show (if bh ≠ c.block_hash
          then Except.error VerifyError.blockHashMismatch
          else Except.ok c)
        = (if bh = c.block_hash then Except.ok c
          else Except.error VerifyError.blockHashMismatch)
      by_cases hbh : bh = c.block_hash
      · rw [if_neg (not_not.mpr hbh), if_pos hbh]
      · rw [if_pos hbh, if_neg hbh]
  · rw [if_pos hlink, if_neg hlink]

theorem foldlM_blocks_agree {M₁ M₂ : Type} (H : Bytes → Bytes)
    {r₁ : List (JournalBlock M₁)} {r₂ : List (JournalBlock M₂)}
    (hf : List.Forall₂ blocks_agree r₁ r₂) :
    ∀ (b₁ : JournalBlock M₁) (b₂ : JournalBlock M₂), blocks_agree b₁ b₂ →
      (r₁.foldlM (compare_journal_blocks H) b₁).map (fun _ => ())
        = (r₂.foldlM (compare_journal_blocks H) b₂).map (fun _ => ()) := by
  induction hf with
  | nil => intro b₁ b₂ _; rfl
  | @cons c₁ c₂ t₁ t₂ hc _ ih =>
    intro b₁ b₂ hb
    rw [List.foldlM_cons, List.foldlM_cons,
      compare_journal_blocks_bind_eq H b₁ c₁,
      compare_journal_blocks_bind_eq H b₂ c₂,
      ← hb.1, ← hc.1, ← hc.2.1, ← hc.2.2]
    by_cases hlink : b₁.block_hash = c₁.previous_block_hash
    · rw [if_pos hlink, if_pos hlink]
      cases hj : join_hash_pairwise H c₁.entries_hash b₁.block_hash with
      | error e => rfl
      | ok bh =>
        simp only [except_bind_ok]
        by_cases hbh : bh = c₁.block_hash
        · rw [if_pos hbh, if_pos hbh]
          simp only [except_bindM_ok]
          exact ih c₁ c₂ hc
        · rw [if_neg hbh, if_neg hbh]
          rfl
    · rw [if_neg hlink, if_neg hlink]
      rfl

/-- C9: the outcome of chain validation depends only on each block's
`block_hash`, `entries_hash` and `previous_block_hash`: any two block
sequences (over arbitrary metadata types) that agree pairwise on those
three fields validate to the same result. -/
theorem verify_metadata_irrelevant {M₁ M₂ : Type} (H : Bytes → Bytes)
    (bs₁ : List (JournalBlock M₁)) (bs₂ : List (JournalBlock M₂))
    (h : List.Forall₂ blocks_agree bs₁ bs₂) :
    verify H bs₁ = verify H bs₂ := by
  cases h with
  | nil => rfl
  | cons hb hf => exact foldlM_blocks_agree H hf _ _ hb

/-- Witness for C9: two singleton lists whose blocks differ in all
metadata fields but share the hash fields validate identically. -/
theorem verify_metadata_irrelevant_witness :
    List.Forall₂ blocks_agree [zero_block] [one_block] ∧
    verify H0 [zero_block] = verify H0 [one_block] :=
  ⟨.cons ⟨rfl, rfl, rfl⟩ .nil,
    verify_metadata_irrelevant H0 [zero_block] [one_block]
      (.cons ⟨rfl, rfl, rfl⟩ .nil)⟩

end Pyqldb
